import Mathlib

/-!
Verification of the Mandelbrot core from `src/_02_03_mandelbrot/mandelbrot/src/main.rs`.

The embedding models IEEE-754 double values by exact rational arithmetic (`ℚ`).
Every concrete computation the claims evaluate stays inside small dyadic
rationals, where double arithmetic is exact, so the rational model agrees with
the Rust semantics on all inputs appearing in the theorems below.  Rust strings
are modelled as lists of characters; where byte-level slicing matters (the
`parse_pair` slice panic question) a separate byte-accurate model is used.
-/

namespace Mandelbrot

/-- Complex number with double-precision parts, from `num::Complex<f64>`,
modelled with exact rationals. -/
structure Complex where
  re : ℚ
  im : ℚ
deriving DecidableEq, Repr

/-- Complex addition, the `+` of `num::Complex`. -/
def Complex.add (z w : Complex) : Complex :=
  ⟨z.re + w.re, z.im + w.im⟩

/-- Complex multiplication, the `*` of `num::Complex`. -/
def Complex.mul (z w : Complex) : Complex :=
  ⟨z.re * w.re - z.im * w.im, z.re * w.im + z.im * w.re⟩

instance : Add Complex := ⟨Complex.add⟩

instance : Mul Complex := ⟨Complex.mul⟩

/-- Squared magnitude, `num::Complex::norm_sqr`: `re * re + im * im`. -/
def Complex.norm_sqr (z : Complex) : ℚ :=
  z.re * z.re + z.im * z.im

/-- Loop of `escape_time` (`for i in 0..limit` in `main.rs:19-26`): at each
remaining-fuel step it first tests `z.norm_sqr() > 4.0`, returning `some i`,
and otherwise continues with `z * z + c` and `i + 1`. -/
def escapeLoop (c : Complex) : Complex → Nat → Nat → Option Nat
  | _, _, 0 => none
  | z, i, fuel + 1 =>
    if z.norm_sqr > 4 then some i
    else escapeLoop c (z * z + c) (i + 1) fuel

/-- Embedding of `escape_time` (`main.rs:12-28`): start from `z = 0 + 0i` and
run the loop for at most `limit` iterations. -/
def escape_time (c : Complex) (limit : Nat) : Option Nat :=
  escapeLoop c ⟨0, 0⟩ 0 limit

/-- Iterate of the Mandelbrot recurrence described by the spec: `z₀ = 0 + 0i`
and `z_{n+1} = z_n * z_n + c`. -/
def zIter (c : Complex) : Nat → Complex
  | 0 => ⟨0, 0⟩
  | n + 1 => zIter c n * zIter c n + c

/-- Modelled from the spec (§4.3): for `i` from `0` to `limit - 1` in order,
report the first `i` whose iterate has squared magnitude above `4.0`, and
report nothing if the loop completes all `limit` iterations. -/
def escape_time_spec (c : Complex) (limit : Nat) : Option Nat :=
  (List.range limit).find? fun i => decide ((zIter c i).norm_sqr > 4)

/-- Embedding of `pixel_to_point` (`main.rs:103-119`): `bounds` is the image
(width, height) in pixels, `pixel` is the (column, row) coordinate, and the
two corners delimit the plane rectangle. -/
def pixel_to_point (bounds : Nat × Nat) (pixel : Nat × Nat)
    (upper_left lower_right : Complex) : Complex :=
  let width := lower_right.re - upper_left.re
  let height := upper_left.im - lower_right.im
  ⟨upper_left.re + (pixel.1 : ℚ) * width / (bounds.1 : ℚ),
   upper_left.im - (pixel.2 : ℚ) * height / (bounds.2 : ℚ)⟩

/-- Index of the first occurrence of `separator`, modelling `str::find(char)`
(`main.rs:40`) at character granularity. -/
def strFind (separator : Char) : List Char → Option Nat
  | [] => none
  | c :: rest =>
    if c = separator then some 0
    else (strFind separator rest).map (· + 1)

/-- Embedding of `parse_pair::<T>` (`main.rs:38-59`): split at the first
occurrence of `separator`, parse both sides with `T`'s string parser
(`from_str` stands for the `FromStr` implementation of `T`, with `Ok`/`Err`
modelled as `some`/`none`), and pair the results. -/
def parse_pair {T : Type} (from_str : List Char → Option T)
    (s : List Char) (separator : Char) : Option (T × T) :=
  match strFind separator s with
  | none => none
  | some index =>
    match from_str (s.take index), from_str (s.drop (index + 1)) with
    | some l, some r => some (l, r)
    | _, _ => none

/-- Value of a digit string, most significant first. -/
def digitsToNat (s : List Char) : Nat :=
  s.foldl (fun n c => 10 * n + (c.toNat - 48)) 0

/-- Digit-run parser: succeeds exactly on a nonempty all-digit string. -/
def digitsVal (s : List Char) : Option Nat :=
  if s ≠ [] ∧ s.all Char.isDigit then some (digitsToNat s) else none

/-- Modelled from the spec: the standard-library `i32::from_str` used by
`parse_pair::<i32>` in the in-source test (`main.rs:64-68`); it accepts an
optional sign followed by a nonempty digit run, rejects anything else
(whitespace, trailing characters), and fails on overflow past the 32-bit
signed range. -/
def i32_from_str (s : List Char) : Option Int :=
  match s with
  | '+' :: rest =>
    (digitsVal rest).bind fun n =>
      if n ≤ 2147483647 then some (n : Int) else none
  | '-' :: rest =>
    (digitsVal rest).bind fun n =>
      if n ≤ 2147483648 then some (-(n : Int)) else none
  | _ =>
    (digitsVal s).bind fun n =>
      if n ≤ 2147483647 then some (n : Int) else none

/-- Exponent clause of a float literal: empty input means exponent `0`;
otherwise an `e`/`E` marker, an optional sign, and a nonempty digit run, with
nothing after it. -/
def expVal : List Char → Option Int
  | [] => some 0
  | c :: rest =>
    if c = 'e' ∨ c = 'E' then
      match rest with
      | '+' :: d => (digitsVal d).map fun n => (n : Int)
      | '-' :: d => (digitsVal d).map fun n => -(n : Int)
      | d => (digitsVal d).map fun n => (n : Int)
    else none

/-- Modelled from the spec: the standard-library `f64::from_str` used by
`parse_pair::<f64>` inside `parse_complex` (§4.2 of the spec, "numeric type =
double-precision float"); it accepts an optional sign, a mantissa of digits
with an optional decimal point (at least one digit overall), and an optional
exponent clause, with no surrounding whitespace. The value is kept as an
exact rational; every literal evaluated in the theorems below is exactly
representable as a double, where the rational value and the IEEE-754 value
coincide. The special forms `inf`/`nan` are omitted: no claim mentions
them. -/
def f64_from_str (s : List Char) : Option ℚ :=
  let signSplit : ℚ × List Char :=
    match s with
    | '+' :: rest => (1, rest)
    | '-' :: rest => (-1, rest)
    | _ => (1, s)
  let sign := signSplit.1
  let s1 := signSplit.2
  let ip := s1.takeWhile Char.isDigit
  let rest1 := s1.dropWhile Char.isDigit
  let fracSplit : List Char × List Char :=
    match rest1 with
    | '.' :: r => (r.takeWhile Char.isDigit, r.dropWhile Char.isDigit)
    | _ => ([], rest1)
  let fp := fracSplit.1
  let rest2 := fracSplit.2
  if ip = [] ∧ fp = [] then none
  else
    (expVal rest2).map fun e =>
      sign * ((digitsToNat ip : ℚ) + (digitsToNat fp : ℚ) / 10 ^ fp.length) *
        (10 : ℚ) ^ e

/-- Embedding of `parse_complex` (`main.rs:76-83`): `parse_pair` with
separator `,` and the double parser, the left value becoming `re` and the
right one `im`. -/
def parse_complex (s : List Char) : Option Complex :=
  match parse_pair f64_from_str s ',' with
  | some (re, im) => some ⟨re, im⟩
  | none => none

/-- Character list of a string literal. -/
def str (s : String) : List Char :=
  s.toList

/-- Number of bytes in the UTF-8 encoding of a character; Rust's `str::find`
returns byte indices and `&s[a..]`/`&s[..b]` slice at byte offsets. -/
def charBytes (c : Char) : Nat :=
  if c.toNat < 128 then 1
  else if c.toNat < 2048 then 2
  else if c.toNat < 65536 then 3
  else 4

/-- Byte length of a string given as its character list. -/
def byteLen : List Char → Nat
  | [] => 0
  | c :: rest => charBytes c + byteLen rest

/-- Byte index of the first occurrence of `separator`, the value Rust's
`str::find(char)` actually returns in `main.rs:40`. -/
def strFindBytes (separator : Char) : List Char → Option Nat
  | [] => none
  | c :: rest =>
    if c = separator then some 0
    else (strFindBytes separator rest).map (· + charBytes c)

/-- Byte-accurate model of the slice `&s[..n]`: succeeds exactly when byte
offset `n` lies on a character boundary within the string, and then yields
the characters before it; `none` models the slicing panic. -/
def byteTake : List Char → Nat → Option (List Char)
  | _, 0 => some []
  | [], _ + 1 => none
  | c :: rest, n + 1 =>
    if charBytes c ≤ n + 1 then (byteTake rest (n + 1 - charBytes c)).map (c :: ·)
    else none

/-- Byte-accurate model of the slice `&s[n..]`: succeeds exactly when byte
offset `n` lies on a character boundary, yielding the characters from it on;
`none` models the slicing panic. -/
def byteDrop : List Char → Nat → Option (List Char)
  | s, 0 => some s
  | [], _ + 1 => none
  | c :: rest, n + 1 =>
    if charBytes c ≤ n + 1 then byteDrop rest (n + 1 - charBytes c)
    else none

/-- Byte-accurate embedding of `parse_pair` (`main.rs:38-59`): the split index
is the byte index returned by `find`, and the two slices `&s[..index]` and
`&s[index + 1..]` are taken at byte offsets. The outer `Option` separates the
two outcomes: `none` is a char-boundary panic of a slice, `some r` is a
normal return with result `r`. -/
def parse_pair_bytes {T : Type} (from_str : List Char → Option T)
    (s : List Char) (separator : Char) : Option (Option (T × T)) :=
  match strFindBytes separator s with
  | none => some none
  | some index =>
    match byteTake s index, byteDrop s (index + 1) with
    | some left, some right =>
      some (match from_str left, from_str right with
            | some l, some r => some (l, r)
            | _, _ => none)
    | _, _ => none

lemma escapeLoop_eq_find (c : Complex) :
    ∀ fuel i, escapeLoop c (zIter c i) i fuel =
      (List.range' i fuel).find? fun j => decide ((zIter c j).norm_sqr > 4) := by
  intro fuel
  induction fuel with
  | zero => intro i; simp [escapeLoop]
  | succ n ih =>
    intro i
    rw [List.range'_succ]
    by_cases h : (zIter c i).norm_sqr > 4
    · simp [escapeLoop, h, List.find?_cons]
    · have hz : zIter c i * zIter c i + c = zIter c (i + 1) := rfl
      simp only [escapeLoop, if_neg h, hz, ih (i + 1), List.find?_cons]
      simp [h]

lemma escape_time_eq_find (c : Complex) (limit : Nat) :
    escape_time c limit =
      (List.range limit).find? fun j => decide ((zIter c j).norm_sqr > 4) := by
  have h0 : (⟨0, 0⟩ : Complex) = zIter c 0 := rfl
  rw [escape_time, h0, escapeLoop_eq_find c limit 0, List.range_eq_range']

/-- C1: `escape_time(c, limit)` implements exactly the specified algorithm:
starting from `z = 0 + 0i`, for `i` from `0` to `limit - 1` in order it first
tests whether `re(z)^2 + im(z)^2 > 4.0` and, if so, returns `some i`;
otherwise it updates `z` to `z*z + c` and continues; if the loop completes all
`limit` iterations without the test triggering (including `limit = 0`), it
returns `none`. -/
theorem escape_time_implements_spec (c : Complex) (limit : Nat) :
    escape_time c limit = escape_time_spec c limit :=
  escape_time_eq_find c limit

lemma zero_sq_add (c : Complex) : (⟨0, 0⟩ : Complex) * ⟨0, 0⟩ + c = c := by
  cases c
  show Complex.add (Complex.mul ⟨0, 0⟩ ⟨0, 0⟩) _ = _
  simp [Complex.mul, Complex.add]

lemma zIter_zero_c (i : Nat) : zIter ⟨0, 0⟩ i = ⟨0, 0⟩ := by
  induction i with
  | zero => rfl
  | succ n ih => rw [zIter, ih, zero_sq_add]

lemma norm_sqr_zero : (⟨0, 0⟩ : Complex).norm_sqr = 0 := by
  simp [Complex.norm_sqr]

/-- C8: for every iteration limit `N`, `escape_time(0 + 0i, N) = none`: `0` is
a fixed point of the recurrence `z = z*z + c` and its squared magnitude never
exceeds `4`. -/
theorem escape_time_zero_none (N : Nat) :
    escape_time ⟨0, 0⟩ N = none := by
  rw [escape_time_eq_find]
  refine List.find?_eq_none.mpr fun i _ => ?_
  simp [zIter_zero_c, norm_sqr_zero]

/-- C9: `escape_time` never returns `some 0`: the first magnitude test is run
on the initial iterate `z = 0`, whose squared magnitude `0` is not greater
than `4.0`, so every returned escape index `i` satisfies `1 ≤ i < limit`. -/
theorem escape_time_index_bounds (c : Complex) (limit i : Nat)
    (h : escape_time c limit = some i) : 1 ≤ i ∧ i < limit := by
  rw [escape_time_eq_find] at h
  have hmem : i ∈ List.range limit := List.mem_of_find?_eq_some h
  have hp := List.find?_some h
  constructor
  · rcases Nat.eq_zero_or_pos i with h0 | h1
    · subst h0
      simp only [zIter, norm_sqr_zero, gt_iff_lt, decide_eq_true_eq] at hp
      norm_num at hp
    · exact h1
  · exact List.mem_range.mp hmem

lemma escape_time_two_step (c : Complex) (k : Nat) (h4 : c.norm_sqr > 4) :
    escape_time c (k + 2) = some 1 := by
  have hz0 : ¬ ((⟨0, 0⟩ : Complex).norm_sqr > 4) := by
    rw [norm_sqr_zero]; norm_num
  show escapeLoop c ⟨0, 0⟩ 0 (k + 1 + 1) = some 1
  rw [escapeLoop, if_neg hz0, zero_sq_add, escapeLoop, if_pos h4]

lemma norm_sqr_three : (⟨3, 0⟩ : Complex).norm_sqr > 4 := by
  simp only [Complex.norm_sqr]
  norm_num

/-- C9 witness: at `c = 3 + 0i` and `limit = 2` the code returns index `1`,
which indeed satisfies `1 ≤ 1 ∧ 1 < 2`. -/
theorem escape_time_index_bounds_witness : 1 ≤ 1 ∧ 1 < 2 :=
  escape_time_index_bounds ⟨3, 0⟩ 2 1 (escape_time_two_step ⟨3, 0⟩ 0 norm_sqr_three)

/-- C2 counterexample: the claim says `c = 3 + 0i` escapes at iteration `0`,
but the code returns `some 1` (the first test sees `z = 0`), so the result is
not `some 0`. -/
theorem escape_time_three_not_zero :
    escape_time ⟨3, 0⟩ 1000 = some 1 ∧ escape_time ⟨3, 0⟩ 1000 ≠ some 0 := by
  have h : escape_time ⟨3, 0⟩ (998 + 2) = some 1 :=
    escape_time_two_step ⟨3, 0⟩ 998 norm_sqr_three
  exact ⟨h, by rw [show (1000 : Nat) = 998 + 2 from rfl, h]; simp⟩

/-- C2 amended: for every complex `c` with `|c| > 2.0` (equivalently
squared magnitude above `4`) and every `limit ≥ 2`, `escape_time(c, limit)`
returns `some 1`: the test at `i = 0` sees `z = 0` and fails, the test at
`i = 1` sees `z = c` and triggers. In particular `c = 3 + 0i` escapes at
iteration `1`, not `0`. -/
theorem escape_time_escapes_outside (c : Complex) (limit : Nat)
    (h4 : c.norm_sqr > 4) (h2 : 2 ≤ limit) : escape_time c limit = some 1 := by
  obtain ⟨k, rfl⟩ : ∃ k, limit = k + 2 := ⟨limit - 2, by omega⟩
  exact escape_time_two_step c k h4

/-- C2 amended witness: `escape_time(3 + 0i, 2) = some 1`, with
`norm_sqr(3 + 0i) = 9 > 4` and `2 ≤ 2`. -/
theorem escape_time_escapes_outside_witness : escape_time ⟨3, 0⟩ 2 = some 1 :=
  escape_time_escapes_outside ⟨3, 0⟩ 2 norm_sqr_three (by norm_num)

/-- C3: `pixel_to_point` returns the complex number with
`re = upper_left.re + column * (lower_right.re - upper_left.re) / bounds.width`
and
`im = upper_left.im - row * (upper_left.im - lower_right.im) / bounds.height`;
pixel `(0,0)` maps exactly to `upper_left`, and in particular
`pixel_to_point((100,100), (0,0), -1+1i, 1-1i) = -1+1i` exactly. -/
theorem pixel_to_point_formula (bounds pixel : Nat × Nat)
    (upper_left lower_right : Complex) :
    (pixel_to_point bounds pixel upper_left lower_right).re =
      upper_left.re +
        (pixel.1 : ℚ) * (lower_right.re - upper_left.re) / (bounds.1 : ℚ) ∧
    (pixel_to_point bounds pixel upper_left lower_right).im =
      upper_left.im -
        (pixel.2 : ℚ) * (upper_left.im - lower_right.im) / (bounds.2 : ℚ) ∧
    pixel_to_point bounds (0, 0) upper_left lower_right = upper_left ∧
    pixel_to_point (100, 100) (0, 0) ⟨-1, 1⟩ ⟨1, -1⟩ = (⟨-1, 1⟩ : Complex) := by
  refine ⟨rfl, rfl, ?_, ?_⟩
  · simp [pixel_to_point]
  · simp [pixel_to_point]

lemma strFind_eq_none (sep : Char) (s : List Char) (h : sep ∉ s) :
    strFind sep s = none := by
  induction s with
  | nil => rfl
  | cons c rest ih =>
    have hc : ¬ (c = sep) := fun e => h (e ▸ List.mem_cons_self c rest)
    have hr : sep ∉ rest := fun hm => h (List.mem_cons_of_mem c hm)
    simp [strFind, hc, ih hr]

lemma strFind_append (a : List Char) (sep : Char) (b : List Char)
    (h : sep ∉ a) : strFind sep (a ++ sep :: b) = some a.length := by
  induction a with
  | nil => simp [strFind]
  | cons c rest ih =>
    have hc : ¬ (c = sep) := fun e => h (e ▸ List.mem_cons_self c rest)
    have hr : sep ∉ rest := fun hm => h (List.mem_cons_of_mem c hm)
    simp [strFind, hc, ih hr]

lemma parse_pair_split {T : Type} (f : List Char → Option T)
    (a b : List Char) (sep : Char) (h : sep ∉ a) :
    parse_pair f (a ++ sep :: b) sep =
      match f a, f b with
      | some l, some r => some (l, r)
      | _, _ => none := by
  have hfind := strFind_append a sep b h
  have htake : (a ++ sep :: b).take a.length = a := List.take_left a (sep :: b)
  have hdrop : (a ++ sep :: b).drop (a.length + 1) = b := by
    clear h hfind htake
    induction a with
    | nil => rfl
    | cons c rest ih => simp [ih]
  simp only [parse_pair, hfind, htake, hdrop]

lemma parse_pair_sep_absent {T : Type} (f : List Char → Option T)
    (s : List Char) (sep : Char) (h : sep ∉ s) :
    parse_pair f s sep = none := by
  simp only [parse_pair, strFind_eq_none sep s h]

/-- C4: `parse_pair` returns `none` on every malformed input of the listed
shapes — empty input, separator at position `0`, separator at the last
character, trailing garbage after a valid right-hand number, separator
absent — and returns `some` of the two parsed values in (left, right) order
when the separator is present and both substrings parse; in particular
`parse_pair::<i32>("10,20", ',') = some (10, 20)`. -/
theorem parse_pair_malformed_cases :
    parse_pair i32_from_str (str "") ',' = none ∧
    (∀ s : List Char, parse_pair i32_from_str (',' :: s) ',' = none) ∧
    (∀ t : List Char, ',' ∉ t →
      parse_pair i32_from_str (t ++ [',']) ',' = none) ∧
    (∀ t : List Char, ',' ∉ t → parse_pair i32_from_str t ',' = none) ∧
    parse_pair i32_from_str (str "10,20xy") ',' = none ∧
    parse_pair i32_from_str (str "10,20") ',' = some (10, 20) := by
  refine ⟨by decide, fun s => rfl, fun t ht => ?_, ?_, by decide, by decide⟩
  · rw [parse_pair_split i32_from_str t [] ',' ht]
    cases i32_from_str t <;> rfl
  · exact fun t ht => parse_pair_sep_absent i32_from_str t ',' ht

/-- C4 witness: the two quantified malformed shapes at concrete inputs:
`parse_pair::<i32>("10,", ',') = none` and
`parse_pair::<i32>("10", ',') = none`. -/
theorem parse_pair_malformed_cases_witness :
    parse_pair i32_from_str (['1', '0'] ++ [',']) ',' = none ∧
    parse_pair i32_from_str ['1', '0'] ',' = none :=
  ⟨parse_pair_malformed_cases.2.2.1 ['1', '0'] (by decide),
   parse_pair_malformed_cases.2.2.2.1 ['1', '0'] (by decide)⟩

lemma f64_val_125 : f64_from_str (str "1.25") = some (5 / 4 : ℚ) := by
  have h : f64_from_str (str "1.25") =
      some ((1 : ℚ) * ((1 : ℚ) + (25 : ℚ) / 10 ^ 2) * (10 : ℚ) ^ (0 : ℤ)) :=
    rfl
  rw [h, zpow_zero]
  norm_num

lemma f64_val_neg_0625 : f64_from_str (str "-0.0625") = some (-(1 / 16) : ℚ) := by
  have h : f64_from_str (str "-0.0625") =
      some ((-1 : ℚ) * ((0 : ℚ) + (625 : ℚ) / 10 ^ 4) * (10 : ℚ) ^ (0 : ℤ)) :=
    rfl
  rw [h, zpow_zero]
  norm_num

/-- C6: `parse_complex(s)` equals `parse_pair::<f64>(s, ',')` with a
successful pair `(l, r)` wrapped as `Complex{re: l, im: r}` and `none`
propagated unchanged; in particular
`parse_complex("1.25,-0.0625") = some ⟨1.25, -0.0625⟩` and
`parse_complex(",-0.0625") = none`. -/
theorem parse_complex_delegates :
    (∀ s : List Char, parse_complex s =
      (parse_pair f64_from_str s ',').map fun p => Complex.mk p.1 p.2) ∧
    parse_complex (str "1.25,-0.0625") = some ⟨5 / 4, -(1 / 16)⟩ ∧
    parse_complex (str ",-0.0625") = none := by
  refine ⟨fun s => ?_, ?_, by decide⟩
  · cases h : parse_pair f64_from_str s ',' with
    | none => simp [parse_complex, h]
    | some p => cases p; simp [parse_complex, h]
  · have hsplit : str "1.25,-0.0625" = str "1.25" ++ ',' :: str "-0.0625" := by
      decide
    have hp : parse_pair f64_from_str (str "1.25,-0.0625") ',' =
        some (5 / 4, -(1 / 16)) := by
      rw [hsplit, parse_pair_split f64_from_str (str "1.25") (str "-0.0625")
        ',' (by decide), f64_val_125, f64_val_neg_0625]
    simp [parse_complex, hp]

/-- C10: `parse_complex("1.25, -0.0625") = none`: the space after the comma
leaves the right-hand substring `" -0.0625"`, which does not parse as a
double, so whitespace around an operand is rejected — even though the
in-source test `test_parse_complex` expects `some` for this very input. -/
theorem parse_complex_rejects_space :
    parse_complex (str "1.25, -0.0625") = none ∧
    f64_from_str (str " -0.0625") = none :=
  ⟨by decide, by decide⟩

lemma charBytes_pos (c : Char) : 1 ≤ charBytes c := by
  simp only [charBytes]
  split
  · norm_num
  · split
    · norm_num
    · split <;> norm_num

lemma strFindBytes_none (sep : Char) (s : List Char)
    (hf : strFind sep s = none) : strFindBytes sep s = none := by
  induction s with
  | nil => rfl
  | cons c rest ih =>
    by_cases hc : c = sep
    · simp [strFind, hc] at hf
    · simp only [strFind, if_neg hc, Option.map_eq_none'] at hf
      simp [strFindBytes, hc, ih hf]

lemma strFindBytes_some (sep : Char) (s : List Char) (i : Nat)
    (hf : strFind sep s = some i) :
    strFindBytes sep s = some (byteLen (s.take i)) := by
  induction s generalizing i with
  | nil => simp [strFind] at hf
  | cons c rest ih =>
    by_cases hc : c = sep
    · simp only [strFind, if_pos hc, Option.some.injEq] at hf
      subst hf
      simp [strFindBytes, hc, byteLen]
    · simp only [strFind, if_neg hc, Option.map_eq_some'] at hf
      obtain ⟨j, hj, rfl⟩ := hf
      simp [strFindBytes, hc, ih j hj, byteLen, Nat.add_comm]

lemma byteTake_cons (c : Char) (rest : List Char) (n : Nat)
    (h : charBytes c ≤ n) :
    byteTake (c :: rest) n = (byteTake rest (n - charBytes c)).map (c :: ·) := by
  have h1 : 1 ≤ n := le_trans (charBytes_pos c) h
  obtain ⟨m, rfl⟩ : ∃ m, n = m + 1 := ⟨n - 1, by omega⟩
  rw [byteTake, if_pos h]

lemma byteDrop_cons (c : Char) (rest : List Char) (n : Nat)
    (h : charBytes c ≤ n) :
    byteDrop (c :: rest) n = byteDrop rest (n - charBytes c) := by
  have h1 : 1 ≤ n := le_trans (charBytes_pos c) h
  obtain ⟨m, rfl⟩ : ∃ m, n = m + 1 := ⟨n - 1, by omega⟩
  rw [byteDrop, if_pos h]

lemma byteTake_exact (s : List Char) : ∀ i : Nat,
    byteTake s (byteLen (s.take i)) = some (s.take i) := by
  induction s with
  | nil => intro i; simp [byteLen, byteTake]
  | cons c rest ih =>
    intro i
    cases i with
    | zero => simp [byteLen, byteTake]
    | succ j =>
      have hstep : (c :: rest).take (j + 1) = c :: rest.take j := rfl
      rw [hstep, byteLen,
        byteTake_cons c rest _ (Nat.le_add_right _ _),
        Nat.add_sub_cancel_left, ih j]
      rfl

lemma byteDrop_after (sep : Char) (hsep : charBytes sep = 1)
    (s : List Char) : ∀ i : Nat, strFind sep s = some i →
    byteDrop s (byteLen (s.take i) + 1) = some (s.drop (i + 1)) := by
  induction s with
  | nil => intro i hf; simp [strFind] at hf
  | cons c rest ih =>
    intro i hf
    by_cases hc : c = sep
    · simp only [strFind, if_pos hc, Option.some.injEq] at hf
      subst hf
      subst hc
      simp only [List.take_zero, byteLen, Nat.zero_add]
      rw [byteDrop_cons c rest 1 (by omega), hsep]
      simp [byteDrop]
    · simp only [strFind, if_neg hc, Option.map_eq_some'] at hf
      obtain ⟨j, hj, rfl⟩ := hf
      have hstep : (c :: rest).take (j + 1) = c :: rest.take j := rfl
      rw [hstep, byteLen,
        byteDrop_cons c rest _ (by omega),
        show charBytes c + byteLen (rest.take j) + 1 - charBytes c =
          byteLen (rest.take j) + 1 from by omega,
        ih j hj]
      rfl

lemma parse_pair_bytes_agree {T : Type} (f : List Char → Option T)
    (s : List Char) (sep : Char) (hsep : charBytes sep = 1) :
    parse_pair_bytes f s sep = some (parse_pair f s sep) := by
  cases hf : strFind sep s with
  | none =>
    simp only [parse_pair_bytes, strFindBytes_none sep s hf, parse_pair, hf]
  | some i =>
    simp only [parse_pair_bytes, strFindBytes_some sep s i hf,
      byteTake_exact s i, byteDrop_after sep hsep s i hf, parse_pair, hf]

/-- C7 counterexample: with the two-byte separator `é`, the text
`"10é20é30"` contains the separator, yet no right-hand substring is ever
handed to `T`'s parser: `find` returns byte index `2` and the slice
`&s[3..]` starts inside the first separator character, so the program
panics (the byte-accurate model yields `none`) instead of splitting. -/
theorem parse_pair_multibyte_no_split :
    parse_pair_bytes i32_from_str (str "10é20é30") 'é' = none := by
  decide

/-- C7 amended: for every text containing a single-byte separator at least
once, `parse_pair` splits at the first occurrence only: it returns normally,
the left operand parsed is the text before the first occurrence and the
right operand is everything after it (later occurrences stay inside the
right-hand substring handed to `T`'s parser) — both in the byte-accurate
model and in the character-level one, which agree under this hypothesis.
With a multi-byte separator the code panics on `&s[index + 1..]` instead. -/
theorem parse_pair_splits_at_first {T : Type} (f : List Char → Option T)
    (a b : List Char) (sep : Char) (hsep : charBytes sep = 1) (h : sep ∉ a) :
    parse_pair f (a ++ sep :: b) sep =
      (match f a, f b with
       | some l, some r => some (l, r)
       | _, _ => none) ∧
    parse_pair_bytes f (a ++ sep :: b) sep =
      some (match f a, f b with
            | some l, some r => some (l, r)
            | _, _ => none) := by
  have hc := parse_pair_split f a b sep h
  exact ⟨hc, by rw [parse_pair_bytes_agree f (a ++ sep :: b) sep hsep, hc]⟩

/-- C7 amended witness: on `"10,20,30"` the single-byte comma splits at its
first occurrence, so the right-hand substring is `"20,30"`, which fails to
parse as `i32`, and the byte-accurate run returns that result normally. -/
theorem parse_pair_splits_at_first_witness :
    parse_pair i32_from_str (str "10" ++ ',' :: str "20,30") ',' = none ∧
    parse_pair_bytes i32_from_str (str "10" ++ ',' :: str "20,30") ',' =
      some none := by
  have h := parse_pair_splits_at_first i32_from_str (str "10") (str "20,30")
    ',' (by decide) (by decide)
  exact ⟨by rw [h.1]; decide, by rw [h.2]; decide⟩

/-- C5 counterexample: with the two-byte separator `é`, `find` returns byte
index `1` on `"1é2"` and the slice `&s[2..]` starts inside the separator
character, so the code panics on a char boundary instead of returning a
value: the byte-accurate model yields `none` (a panic), not `some r`. -/
theorem parse_pair_bytes_panics :
    parse_pair_bytes i32_from_str (str "1é2") 'é' = none := by
  decide

/-- C5 amended: `parse_pair` is a total pure function whenever the separator
is a single-byte character (every separator actually used by the program is
ASCII): it always returns a value, both slices succeed, and the returned
value is the one computed by the character-level semantics. With a multi-byte
separator occurring in the text, the slice `&s[index + 1..]` panics
instead. -/
theorem parse_pair_total_single_byte {T : Type} (f : List Char → Option T)
    (s : List Char) (sep : Char) (hsep : charBytes sep = 1) :
    parse_pair_bytes f s sep = some (parse_pair f s sep) :=
  parse_pair_bytes_agree f s sep hsep

/-- C5 amended witness: the comma separator is a single byte, so on
`"10,20"` the byte-accurate run returns normally with the character-level
result. -/
theorem parse_pair_total_single_byte_witness :
    parse_pair_bytes i32_from_str (str "10,20") ',' =
      some (parse_pair i32_from_str (str "10,20") ',') :=
  parse_pair_total_single_byte i32_from_str (str "10,20") ',' (by decide)

end Mandelbrot
